import Mathlib

/-!
Verification of the mini blockchain ledger (`mini_blockchain.py`).

The development shallowly embeds the data model and operations of the source
file: transactions, blocks, the merkle commitment, the pending pool, balance
accounting, transaction admission, proof-of-work search and chain validation.

Modelling conventions, stated once here and referenced from the definitions:
* Python floats (amounts, fees, timestamps) are modelled as rationals (`Rat`);
  no claim under scrutiny depends on floating-point rounding.
* `hashlib.sha256(s).hexdigest()` is modelled by an injective function of the
  input string.  A shallow embedding cannot prove tamper-evidence of a real
  digest (that is collision resistance, a cryptographic assumption); the
  spec's tamper claims are exactly the statement that distinct preimages give
  distinct digests, so the model makes that assumption explicit by using an
  injective digest function.
* `json.dumps(..., sort_keys=True)` is modelled by concatenation of the
  key/value pieces in sorted key order.  The atom encodings (numbers, string
  escaping) are modelled by injective Lean encoders rather than the exact
  Python byte grammar: the claims depend only on the canonical field order
  and on injectivity of the encoding, never on the concrete byte values.
* `time.time()` is modelled by passing timestamps explicitly.
* The ECDSA primitives of the external `ecdsa` package (`VerifyingKey.from_string`,
  `vk.verify`) are modelled by an opaque-to-the-ledger record of boolean
  oracles (`Crypto`); the repository code never inspects their internals,
  only branches on success/failure, which the embedding reproduces exactly.
-/

set_option maxRecDepth 16384

namespace MiniBlockchain

/-! ## The digest model

`sha256` models `sha256(data) = hashlib.sha256(data.encode()).hexdigest()`
from the source.  See the module docstring for why the model is an injective
tagging function rather than a real digest. -/

/-- Model of the source's `sha256 : str -> str` (an injective digest). -/
def sha256 (s : String) : String := "#" ++ s

/-! ## JSON string escaping (model of the `json.dumps` string atom) -/

/-- Escaping of one character inside a JSON string literal. -/
def escChar (c : Char) : List Char :=
  if c = '"' ∨ c = '\\' then ['\\', c] else [c]

def escList : List Char → List Char
  | [] => []
  | c :: r => escChar c ++ escList r

/-- Escaped content of a JSON string literal. -/
def jsonEsc (s : String) : String := ⟨escList s.data⟩

/-- A quoted JSON string literal. -/
def jsonStr (s : String) : String := "\"" ++ jsonEsc s ++ "\""

/-! ## Numeric atoms (model of the `json.dumps` number encoding)

The claims need the number encoding to be a fixed injective function of the
value; the concrete digit grammar is irrelevant to every claim, so the model
uses its own decimal encoder with a proved left inverse. -/

/-- Decimal digits of `n`, least significant first, driven by fuel
(`fuel ≥ n` suffices). -/
def digitsRev : Nat → Nat → List Char
  | 0, _ => []
  | f + 1, n => if n = 0 then [] else Nat.digitChar (n % 10) :: digitsRev f (n / 10)

/-- Value of a little-endian decimal digit string. -/
def undigits : List Char → Nat
  | [] => 0
  | c :: r => (c.toNat - 48) + 10 * undigits r

/-- Model of the decimal rendering of a natural number. -/
def natRepr (n : Nat) : String := if n = 0 then "0" else ⟨(digitsRev n n).reverse⟩

/-- Model of the rendering of an integer. -/
def intRepr (i : Int) : String := if i < 0 then "-" ++ natRepr i.natAbs else natRepr i.natAbs

/-- Model of the rendering of a rational value (the idealized float). -/
def ratRepr (q : Rat) : String := intRepr q.num ++ "/" ++ natRepr q.den

/-! ## Hex decoding and the ECDSA oracle (model of `Wallet` internals) -/

/-- Value of one hex digit, `none` on a non-hex character
(model of the per-character behaviour of `bytes.fromhex`). -/
def hexVal (c : Char) : Option Nat :=
  if '0' ≤ c ∧ c ≤ '9' then some (c.toNat - 48)
  else if 'a' ≤ c ∧ c ≤ 'f' then some (c.toNat - 87)
  else if 'A' ≤ c ∧ c ≤ 'F' then some (c.toNat - 55)
  else none

/-- Model of `bytes.fromhex`: an even run of hex digits decodes to bytes,
anything else raises `ValueError` (here: `none`). -/
def hexPairs : List Char → Option (List Nat)
  | [] => some []
  | [_] => none
  | c :: d :: r =>
    match hexVal c, hexVal d, hexPairs r with
    | some a, some b, some l => some ((16 * a + b) :: l)
    | _, _, _ => none

def hexDecode (s : String) : Option (List Nat) := hexPairs s.data

/-- Oracles for the two fallible calls into the external `ecdsa` package.
`vkParse pk` models whether `VerifyingKey.from_string(pk, SECP256k1)` succeeds
(wrong-length or off-curve key bytes make it `false`); `verifyOk pk sg msg`
models whether `vk.verify(sg, msg)` succeeds (a cryptographically invalid
signature makes it `false`).  The repository only branches on these outcomes,
so every theorem below is proved for all possible oracles. -/
structure Crypto where
  vkParse : List Nat → Bool
  verifyOk : List Nat → List Nat → String → Bool

/-- Python exception kinds that the embedded code can raise. -/
inductive PyError where
  | typeError
  | valueError
  | malformedPoint
  | badSignature
deriving DecidableEq

/-- Body of the `try:` block of `Wallet.verify_signature` (lines 67-70):
decode the public key hex, build the verifying key, decode the signature hex,
verify; each step propagates its exception. -/
def verifyAttempt (c : Crypto) (public_hex : String) (message : String)
    (signature_hex : String) : Except PyError Bool :=
  match hexDecode public_hex with
  | none => .error .valueError
  | some pk =>
    if c.vkParse pk then
      match hexDecode signature_hex with
      | none => .error .valueError
      | some sg =>
        if c.verifyOk pk sg message then .ok true else .error .badSignature
    else .error .malformedPoint

/-- Model of `Wallet.verify_signature` (lines 62-72): the `try`/`except`
turns every exception of the attempt into the return value `False`. -/
def Wallet.verify_signature (c : Crypto) (public_hex : String) (message : String)
    (signature_hex : String) : Bool :=
  match verifyAttempt c public_hex message signature_hex with
  | .ok b => b
  | .error _ => false

/-! ## Transactions -/

/-- Model of `Transaction` (lines 77-84).  `amount`, `fee`, `timestamp` are
idealized floats; `signature` is the optional hex signature. -/
structure Transaction where
  sender : String
  recipient : String
  amount : Rat
  fee : Rat
  timestamp : Rat
  signature : Option String
deriving DecidableEq

/-- Tail of the canonical transaction serialization: every field after
`amount` in sorted key order (`fee`, `recipient`, `sender`, `timestamp`).
The signature field never appears. -/
def txPayloadRest (t : Transaction) : String :=
  ", \"fee\": " ++ ratRepr t.fee ++
  ", \"recipient\": " ++ jsonStr t.recipient ++
  ", \"sender\": " ++ jsonStr t.sender ++
  ", \"timestamp\": " ++ ratRepr t.timestamp ++ "\x7d"

/-- Model of the canonical serialization in `Transaction.compute_hash`
(lines 96-105): `json.dumps({sender, recipient, amount, fee, timestamp},
sort_keys=True)`, so the keys appear in the order
`amount, fee, recipient, sender, timestamp`, signature excluded. -/
def txPayload (t : Transaction) : String :=
  ("\x7b\"amount\": " ++ ratRepr t.amount) ++ txPayloadRest t

/-- Model of `Transaction.compute_hash` (lines 96-105). -/
def Transaction.compute_hash (t : Transaction) : String := sha256 (txPayload t)

/-- Model of `Transaction.is_signed` (lines 116-117). -/
def Transaction.is_signed (t : Transaction) : Bool := t.signature.isSome

/-- Model of `Transaction.is_valid` (lines 119-130): a SYSTEM transaction is
always valid; otherwise the signature must exist and verify against the
sender public key over the canonical hash (its UTF-8 bytes are modelled by
the hash string itself). -/
def Transaction.is_valid (c : Crypto) (t : Transaction) : Bool :=
  if t.sender = "SYSTEM" then true
  else match t.signature with
    | none => false
    | some sig => Wallet.verify_signature c t.sender t.compute_hash sig

/-! ## Merkle commitment -/

/-- One padding step of `Block.compute_merkle_root` (lines 152-153):
duplicate the last hash when the level has odd length. -/
def merklePad (l : List String) : List String :=
  if l.length % 2 = 1 then l ++ [l.getLastD ""] else l

/-- One pairing step of `Block.compute_merkle_root` (lines 154-158):
hash adjacent digests left to right. -/
def merklePair : List String → List String
  | a :: b :: r => sha256 (a ++ b) :: merklePair r
  | _ => []

/-- The `while len > 1` loop of `Block.compute_merkle_root` (lines 151-159),
returning the remaining hash, driven by explicit fuel so that the recursion
is structural.  Each iteration strictly shrinks a level of length ≥ 2, so
any fuel ≥ the level length runs the loop to completion; the fuel-exhausted
branch is unreachable from `merkleLoop`.  (The default for an empty level
never fires: the caller guards the empty list.) -/
def merkleLoopFuel : Nat → List String → String
  | 0, l => l.headD (sha256 "")
  | f + 1, l =>
    if l.length ≤ 1 then l.headD (sha256 "")
    else merkleLoopFuel f (merklePair (merklePad l))

/-- The `while` loop of `Block.compute_merkle_root`, with enough fuel. -/
def merkleLoop (l : List String) : String := merkleLoopFuel l.length l

/-- Model of `Block.compute_merkle_root` (lines 144-159): hash of the empty
string on an empty transaction list, otherwise the pairwise reduction of the
canonical transaction hashes. -/
def compute_merkle_root (txs : List Transaction) : String :=
  let tx_hashes := txs.map Transaction.compute_hash
  if tx_hashes = [] then sha256 "" else merkleLoop tx_hashes

/-! ## Blocks -/

/-- Model of `Block` (lines 135-142).  `hash` is the stored hash field, which
tampering may desynchronize from the recomputed hash. -/
structure Block where
  index : Nat
  transactions : List Transaction
  previous_hash : String
  timestamp : Rat
  nonce : Nat
  hash : String
deriving DecidableEq

/-- Leading part of the block header serialization of `Block.compute_hash`
(lines 161-169), up to the opening quote of the `merkle_root` value
(sorted key order: `index, merkle_root, nonce, previous_hash, timestamp`). -/
def headerPre (b : Block) : String :=
  "\x7b\"index\": " ++ natRepr b.index ++ ", \"merkle_root\": \""

/-- Trailing part of the block header serialization, from the closing quote
of the `merkle_root` value. -/
def headerPost (b : Block) : String :=
  "\", \"nonce\": " ++ natRepr b.nonce ++
  ", \"previous_hash\": " ++ jsonStr b.previous_hash ++
  ", \"timestamp\": " ++ ratRepr b.timestamp ++ "\x7d"

/-- Model of the block header serialization hashed by `Block.compute_hash`:
the merkle root is recomputed from the live transaction list on every call,
and the stored `hash` field is not an input. -/
def headerPayload (b : Block) : String :=
  headerPre b ++ jsonEsc (compute_merkle_root b.transactions) ++ headerPost b

/-- Model of `Block.compute_hash` (lines 161-169). -/
def Block.compute_hash (b : Block) : String := sha256 (headerPayload b)

/-- Model of the `Block` constructor (lines 136-142): store the fields and
compute the stored hash from them. -/
def Block.new (index : Nat) (transactions : List Transaction) (previous_hash : String)
    (timestamp : Rat) (nonce : Nat) : Block :=
  let b : Block :=
    { index := index, transactions := transactions, previous_hash := previous_hash,
      timestamp := timestamp, nonce := nonce, hash := "" }
  { b with hash := b.compute_hash }

/-! ## The ledger -/

/-- Model of `Blockchain` (lines 174-180). -/
structure Blockchain where
  chain : List Block
  pending_transactions : List Transaction
  difficulty : Nat
  mining_reward : Rat
deriving DecidableEq

/-- Model of `Blockchain.__init__` + `create_genesis_block` (lines 175-185):
the chain starts as the single genesis block with index `0`, no transactions,
sentinel previous hash `"0"` and nonce `0`, its hash computed and stored. -/
def Blockchain.init (difficulty : Nat) (mining_reward : Rat) (ts : Rat) : Blockchain :=
  { chain := [Block.new 0 [] "0" ts 0],
    pending_transactions := [],
    difficulty := difficulty,
    mining_reward := mining_reward }

/-- Model of the `last_block` property (lines 187-189); `chain[-1]` of the
always-nonempty chain (the default never fires on a reachable state). -/
def Blockchain.last_block (bc : Blockchain) : Block :=
  bc.chain.getLastD (Block.new 0 [] "0" 0 0)

/-- Model of `Blockchain.get_balance` (lines 242-250): replay the whole
chain; a matching sender loses `amount + fee`, a matching recipient gains
`amount`. -/
def Blockchain.get_balance (bc : Blockchain) (pubkey : String) : Rat :=
  bc.chain.foldl
    (fun bal blk =>
      blk.transactions.foldl
        (fun bal tx =>
          let bal2 := if tx.sender = pubkey then bal - (tx.amount + tx.fee) else bal
          if tx.recipient = pubkey then bal2 + tx.amount else bal2)
        bal)
    0

/-- The `pending_spent` sum of `add_transaction` (line 200): total
`amount + fee` over pending transactions with the given sender. -/
def Blockchain.pendingSpent (bc : Blockchain) (sender : String) : Rat :=
  ((bc.pending_transactions.filter (fun tx => tx.sender = sender)).map
    (fun tx => tx.amount + tx.fee)).sum

/-- Model of `Blockchain.add_transaction` (lines 191-207): reject an invalid
transaction; for a non-SYSTEM sender reject when `amount + fee` exceeds the
confirmed balance minus the pending spend; otherwise append to the pending
pool and return `True`.  The returned pair is (new state, return value). -/
def Blockchain.add_transaction (c : Crypto) (bc : Blockchain) (tx : Transaction) :
    Blockchain × Bool :=
  if tx.is_valid c = false then (bc, false)
  else if tx.sender ≠ "SYSTEM" ∧
      tx.amount + tx.fee > bc.get_balance tx.sender - bc.pendingSpent tx.sender then
    (bc, false)
  else ({ bc with pending_transactions := bc.pending_transactions ++ [tx] }, true)

/-- The difficulty target `"0" * difficulty` (line 212). -/
def powTarget (d : Nat) : String := ⟨List.replicate d '0'⟩

/-- Model of Python `str.startswith`. -/
def pyStartsWith (s pat : String) : Bool := pat.data.isPrefixOf s.data

/-- The nonce search loop of `proof_of_work` (lines 210-216), started at
nonce `k` and driven by fuel (the source loop is unbounded; a `none` result
models a run cut off before success). -/
def powAux (d : Nat) (b : Block) (k : Nat) : Nat → Option (String × Nat)
  | 0 => none
  | fuel + 1 =>
    let computed_hash := Block.compute_hash { b with nonce := k }
    if pyStartsWith computed_hash (powTarget d) then some (computed_hash, k)
    else powAux d b (k + 1) fuel

/-- Model of `Blockchain.proof_of_work` (lines 209-216): reset the block's
nonce to `0` and search upward for a hash meeting the difficulty target. -/
def Blockchain.proof_of_work (bc : Blockchain) (b : Block) (fuel : Nat) :
    Option (String × Nat) :=
  powAux bc.difficulty b 0 fuel

/-- Model of `Blockchain.mine_pending_transactions` as written (lines
218-240).  Line 226 executes
`Transaction(sender="SYSTEM", recipient=miner_pub, amount=...)`, but
`Transaction.__init__` (line 78) has no parameters named `sender` or
`recipient` (they are `sender_pub` and `recipient_pub`), so every call
raises `TypeError` at that line, before any state is mutated. -/
def Blockchain.mine_pending_transactions (bc : Blockchain) (miner_pub : String) :
    Except PyError (Blockchain × Block) :=
  Except.error PyError.typeError

/-- The reward transaction `mine_pending_transactions` intends to build
(line 226): `SYSTEM -> miner`, amount `mining_reward + total_fees`, fee `0`,
unsigned. -/
def rewardTx (miner_pub : String) (amount ts : Rat) : Transaction :=
  { sender := "SYSTEM", recipient := miner_pub, amount := amount, fee := 0,
    timestamp := ts, signature := none }

/-- Modelled from the spec: `mine(minerPublicKey)` of spec section 4.6, the
intended behaviour of `Blockchain.mine_pending_transactions` (lines 218-240),
whose reward-transaction construction on line 226 passes keyword arguments
`sender=`/`recipient=` that `Transaction.__init__` does not accept and so
raises `TypeError` on every call.  This definition performs the call the
source intends: snapshot the pending pool, append the reward transaction
(base reward plus total fees), build the candidate block on the tip, run
proof-of-work, set hash and nonce, append to the chain, and drop every
included transaction from the pool. -/
def Blockchain.mine_fixed (bc : Blockchain) (miner_pub : String)
    (ts_reward ts_block : Rat) (fuel : Nat) : Option (Blockchain × Block) :=
  let total_fees := (bc.pending_transactions.map Transaction.fee).sum
  let txs_to_include :=
    bc.pending_transactions ++ [rewardTx miner_pub (bc.mining_reward + total_fees) ts_reward]
  let new_block := Block.new (bc.last_block.index + 1) txs_to_include bc.last_block.hash ts_block 0
  match powAux bc.difficulty new_block 0 fuel with
  | none => none
  | some (h, n) =>
    let mined := { new_block with hash := h, nonce := n }
    some ({ bc with
            chain := bc.chain ++ [mined],
            pending_transactions :=
              bc.pending_transactions.filter (fun tx => decide (tx ∉ txs_to_include)) },
          mined)

/-- The validation loop of `is_chain_valid` (lines 253-266), walking the
chain with the previous block at hand: linkage check, stored-hash check,
and transaction validity. -/
def chainCheck (c : Crypto) : Block → List Block → Bool
  | _, [] => true
  | prev, cur :: rest =>
    decide (cur.previous_hash = prev.hash) &&
    decide (cur.compute_hash = cur.hash) &&
    cur.transactions.all (fun tx => tx.is_valid c) &&
    chainCheck c cur rest

/-- Model of `Blockchain.is_chain_valid` (lines 252-267): the loop runs over
indices `1 ..< len(chain)`, so nothing about the genesis block itself is
ever checked except through its successor's `previous_hash`. -/
def Blockchain.is_chain_valid (c : Crypto) (bc : Blockchain) : Bool :=
  match bc.chain with
  | [] => true
  | g :: rest => chainCheck c g rest

/-- In-place update of the element at one position (used to state the
tampering claims). -/
def listModify {α : Type} (f : α → α) : Nat → List α → List α
  | _, [] => []
  | 0, a :: l => f a :: l
  | n + 1, a :: l => a :: listModify f n l

/-- Tampering one stored block of a chain after the fact. -/
def Blockchain.tamper (bc : Blockchain) (i : Nat) (f : Block → Block) : Blockchain :=
  { bc with chain := listModify f i bc.chain }

/-! ## Structural well-formedness of a stored chain

`wfChain`/`wellFormed` capture the two structural facts every chain built by
the ledger satisfies: stored hashes match recomputed hashes, and each block
links to its predecessor.  (`is_chain_valid` checks exactly these plus
transaction validity, for the blocks after genesis.) -/

def wfChain : Block → List Block → Bool
  | _, [] => true
  | prev, cur :: rest =>
    decide (cur.previous_hash = prev.hash) && decide (cur.compute_hash = cur.hash) &&
    wfChain cur rest

/-- A chain is well formed when it is nonempty, the genesis stored hash is
consistent, and every later block links correctly with a consistent stored
hash. -/
def Blockchain.wellFormed (bc : Blockchain) : Bool :=
  match bc.chain with
  | [] => false
  | g :: rest => decide (g.hash = g.compute_hash) && wfChain g rest

/-! ## Reachable ledger states

The transitions are construction, `add_transaction`, and mining.  The mining
transition uses `mine_fixed` (the spec-modelled intent of
`mine_pending_transactions`): the method as written raises `TypeError` on
every call and therefore never changes the state, so it contributes no
transition of its own. -/

inductive Reachable : Blockchain → Prop where
  | boot : ∀ (d : Nat) (r ts : Rat), Reachable (Blockchain.init d r ts)
  | submit : ∀ (c : Crypto) (bc : Blockchain) (tx : Transaction),
      Reachable bc → Reachable (Blockchain.add_transaction c bc tx).1
  | mined : ∀ (bc bc2 : Blockchain) (pub : String) (t1 t2 : Rat) (fuel : Nat) (blk : Block),
      Reachable bc → Blockchain.mine_fixed bc pub t1 t2 fuel = some (bc2, blk) → Reachable bc2

/-- Concrete candidate block used by witnesses. -/
def blkSample : Block := Block.new 0 [] "0" 0 0

/-- An oracle record for witnesses: key parsing succeeds, verification
fails. -/
def cNoVerify : Crypto := ⟨fun _ => true, fun _ _ _ => false⟩

/-- An oracle record for witnesses under which every signature verifies. -/
def cAllTrue : Crypto := ⟨fun _ => true, fun _ _ _ => true⟩

/-- A signed sample transaction of amount 0 and fee 0 from sender "aa". -/
def txSample : Transaction := ⟨"aa", "bb", 0, 0, 1, some "cc"⟩

/-- Concrete two-block well-formed chain carrying one transaction, used to
witness C2. -/
def bcTwo : Blockchain :=
  { chain := [Block.new 0 [] "0" 0 0,
      Block.new 1 [⟨"p", "q", 5, 1, 3, none⟩] (Block.new 0 [] "0" 0 0).hash 2 0],
    pending_transactions := [], difficulty := 0, mining_reward := 25 }

/-! ## String helper lemmas -/

theorem str_data_append (a b : String) : (a ++ b).data = a.data ++ b.data := by
  cases a; cases b; rfl

theorem str_ext {a b : String} (h : a.data = b.data) : a = b := by
  cases a; cases b; exact congrArg String.mk h

theorem str_ne_of_data_ne {a b : String} (h : a.data ≠ b.data) : a ≠ b := by
  intro hab; exact h (by rw [hab])

theorem list_append_cancel_left {α : Type} : ∀ (a b c : List α), a ++ b = a ++ c → b = c := by
  intro a b c h
  induction a with
  | nil => simpa using h
  | cons x xs ih => exact ih (by simpa using h)

/-- Cancellation of a common context around a varying middle piece:
if the middles differ, the full concatenations differ. -/
theorem list_middle_ne {α : Type} (p s : List α) {x y : List α} (h : x ≠ y) :
    p ++ x ++ s ≠ p ++ y ++ s := by
  intro he
  have h2 : x ++ s = y ++ s := by
    apply list_append_cancel_left p
    simpa [List.append_assoc] using he
  have hl : x.length = y.length := by
    have := congrArg List.length h2
    simp [List.length_append] at this
    omega
  exact h ((List.append_inj h2 hl).1)

/-- String version of `list_middle_ne`, in the left-associated form
`(p ++ x) ++ s` produced by writing `p ++ x ++ s`. -/
theorem str_middle_ne (p s : String) {x y : String} (h : x ≠ y) :
    p ++ x ++ s ≠ p ++ y ++ s := by
  apply str_ne_of_data_ne
  rw [str_data_append, str_data_append, str_data_append, str_data_append]
  exact list_middle_ne p.data s.data (fun hd => h (str_ext hd))

theorem str_append_right_ne {x y : String} (c : String) (h : x ≠ y) :
    x ++ c ≠ y ++ c := by
  intro he
  have he2 : x.data ++ c.data = y.data ++ c.data := by
    rw [← str_data_append, ← str_data_append, he]
  have hl : x.data.length = y.data.length := by
    have := congrArg List.length he2
    rw [List.length_append, List.length_append] at this
    omega
  exact h (str_ext ((List.append_inj he2 hl).1))

theorem str_append_left_ne {x y : String} (c : String) (h : x ≠ y) :
    c ++ x ≠ c ++ y := by
  intro he
  have he2 : c.data ++ x.data = c.data ++ y.data := by
    rw [← str_data_append, ← str_data_append, he]
  exact h (str_ext (list_append_cancel_left _ _ _ he2))

theorem str_double_ne {x y : String} (h : x ≠ y) : x ++ x ≠ y ++ y := by
  intro he
  have he2 : x.data ++ x.data = y.data ++ y.data := by
    rw [← str_data_append, ← str_data_append, he]
  have hl : x.data.length = y.data.length := by
    have := congrArg List.length he2
    rw [List.length_append, List.length_append] at this
    omega
  exact h (str_ext ((List.append_inj he2 hl).1))

theorem str_length_append (a b : String) : (a ++ b).length = a.length + b.length := by
  show (a ++ b).data.length = a.data.length + b.data.length
  rw [str_data_append, List.length_append]

theorem sha256_inj {a b : String} (h : sha256 a = sha256 b) : a = b := by
  have := congrArg String.data h
  rw [sha256, sha256, str_data_append, str_data_append] at this
  exact str_ext (by simpa using this)

theorem sha256_ne {a b : String} (h : a ≠ b) : sha256 a ≠ sha256 b :=
  fun he => h (sha256_inj he)

theorem escChar_ne_nil (c : Char) : escChar c ≠ [] := by
  unfold escChar; split <;> simp

theorem escList_inj : ∀ (l₁ l₂ : List Char), escList l₁ = escList l₂ → l₁ = l₂
  | [], [] => fun _ => rfl
  | [], c :: r => by
      intro h
      rw [escList, escList] at h
      rcases List.append_eq_nil.1 h.symm with ⟨h1, _⟩
      exact absurd h1 (escChar_ne_nil c)
  | c :: r, [] => by
      intro h
      rw [escList, escList] at h
      rcases List.append_eq_nil.1 h with ⟨h1, _⟩
      exact absurd h1 (escChar_ne_nil c)
  | c :: r, d :: t => by
      intro h
      rw [escList, escList] at h
      by_cases hc : c = '"' ∨ c = '\\' <;> by_cases hd : d = '"' ∨ d = '\\'
      · rw [escChar, if_pos hc, escChar, if_pos hd] at h
        simp only [List.cons_append, List.cons.injEq] at h
        rw [h.2.1, escList_inj r t h.2.2]
      · rw [escChar, if_pos hc, escChar, if_neg hd] at h
        simp only [List.cons_append, List.cons.injEq] at h
        exact absurd (Or.inr h.1.symm) hd
      · rw [escChar, if_neg hc, escChar, if_pos hd] at h
        simp only [List.cons_append, List.cons.injEq] at h
        exact absurd (Or.inr h.1) hc
      · rw [escChar, if_neg hc, escChar, if_neg hd] at h
        simp only [List.cons_append, List.cons.injEq] at h
        rw [h.1, escList_inj r t h.2]

theorem jsonEsc_inj {a b : String} (h : jsonEsc a = jsonEsc b) : a = b := by
  have := congrArg String.data h
  exact str_ext (escList_inj _ _ (by simpa [jsonEsc] using this))

theorem jsonEsc_ne {a b : String} (h : a ≠ b) : jsonEsc a ≠ jsonEsc b :=
  fun he => h (jsonEsc_inj he)

theorem digit_val (d : Nat) (hd : d < 10) : (Nat.digitChar d).toNat - 48 = d := by
  interval_cases d <;> rfl

theorem undigits_digitsRev : ∀ (f n : Nat), n ≤ f → undigits (digitsRev f n) = n := by
  intro f
  induction f with
  | zero => intro n h; interval_cases n; rfl
  | succ f ih =>
    intro n h
    by_cases h0 : n = 0
    · subst h0; rfl
    · rw [digitsRev, if_neg h0, undigits, digit_val _ (Nat.mod_lt _ (by omega)),
        ih (n / 10) (by omega)]
      omega

theorem natRepr_inj {m n : Nat} (h : natRepr m = natRepr n) : m = n := by
  have hd := congrArg String.data h
  by_cases hm : m = 0 <;> by_cases hn : n = 0
  · omega
  · rw [natRepr, if_pos hm, natRepr, if_neg hn] at hd
    have : digitsRev n n = ['0'] := by
      have := congrArg List.reverse hd
      simpa using this.symm
    have hv := undigits_digitsRev n n le_rfl
    rw [this] at hv
    simp [undigits] at hv
    omega
  · rw [natRepr, if_neg hm, natRepr, if_pos hn] at hd
    have : digitsRev m m = ['0'] := by
      have := congrArg List.reverse hd
      simpa using this
    have hv := undigits_digitsRev m m le_rfl
    rw [this] at hv
    simp [undigits] at hv
    omega
  · rw [natRepr, if_neg hm, natRepr, if_neg hn] at hd
    have hrev : digitsRev m m = digitsRev n n := by
      have := congrArg List.reverse hd
      simpa using this
    have h1 := undigits_digitsRev m m le_rfl
    have h2 := undigits_digitsRev n n le_rfl
    rw [hrev, h2] at h1
    exact h1.symm

theorem digitsRev_chars : ∀ (f n : Nat), ∀ c ∈ digitsRev f n, ∃ d, d < 10 ∧ c = Nat.digitChar d := by
  intro f
  induction f with
  | zero => intro n c hc; simp [digitsRev] at hc
  | succ f ih =>
    intro n c hc
    by_cases h0 : n = 0
    · rw [digitsRev, if_pos h0] at hc; simp at hc
    · rw [digitsRev, if_neg h0] at hc
      rcases List.mem_cons.1 hc with h | h
      · exact ⟨n % 10, Nat.mod_lt _ (by omega), h⟩
      · exact ih _ c h

theorem digitChar_not_special : ∀ d, d < 10 → Nat.digitChar d ≠ '-' ∧ Nat.digitChar d ≠ '/' := by
  decide

theorem natRepr_chars (n : Nat) : ∀ c ∈ (natRepr n).data, c ≠ '-' ∧ c ≠ '/' := by
  intro c hc
  by_cases h0 : n = 0
  · rw [natRepr, if_pos h0] at hc
    simp only [show ("0" : String).data = ['0'] from rfl, List.mem_singleton] at hc
    subst hc
    exact ⟨by decide, by decide⟩
  · rw [natRepr, if_neg h0] at hc
    have hc2 : c ∈ digitsRev n n := by
      have : c ∈ (digitsRev n n).reverse := hc
      simpa using this
    rcases digitsRev_chars n n c hc2 with ⟨d, hd, rfl⟩
    exact digitChar_not_special d hd

theorem natRepr_ne_nil (n : Nat) : (natRepr n).data ≠ [] := by
  by_cases h0 : n = 0
  · rw [natRepr, if_pos h0]; simp [show ("0" : String).data = ['0'] from rfl]
  · rw [natRepr, if_neg h0]
    intro hd
    have : digitsRev n n = [] := by
      have := congrArg List.reverse hd
      simpa using this
    have hv := undigits_digitsRev n n le_rfl
    rw [this] at hv
    exact h0 (by simpa [undigits] using hv.symm)

theorem intRepr_chars (i : Int) : ∀ c ∈ (intRepr i).data, c ≠ '/' := by
  intro c hc
  rw [intRepr] at hc
  split at hc
  · rw [str_data_append] at hc
    rcases List.mem_append.1 hc with h | h
    · simp only [show ("-" : String).data = ['-'] from rfl, List.mem_singleton] at h
      subst h; decide
    · exact (natRepr_chars _ c h).2
  · exact (natRepr_chars _ c hc).2

theorem intRepr_inj {i j : Int} (h : intRepr i = intRepr j) : i = j := by
  have hd := congrArg String.data h
  rw [intRepr, intRepr] at hd
  split at hd <;> split at hd
  · rw [str_data_append, str_data_append] at hd
    have : (natRepr i.natAbs).data = (natRepr j.natAbs).data :=
      list_append_cancel_left _ _ _ hd
    have := natRepr_inj (str_ext this)
    omega
  · exfalso
    rw [str_data_append] at hd
    rcases hn : (natRepr j.natAbs).data with _ | ⟨c, r⟩
    · exact natRepr_ne_nil _ hn
    · rw [hn] at hd
      have : '-' = c := by
        simpa [show ("-" : String).data = ['-'] from rfl] using congrArg (List.headD · ' ') hd
      exact (natRepr_chars j.natAbs c (by rw [hn]; simp)).1 this.symm
  · exfalso
    rw [str_data_append] at hd
    rcases hn : (natRepr i.natAbs).data with _ | ⟨c, r⟩
    · exact natRepr_ne_nil _ hn
    · rw [hn] at hd
      have : c = '-' := by
        simpa [show ("-" : String).data = ['-'] from rfl] using congrArg (List.headD · ' ') hd
      exact (natRepr_chars i.natAbs c (by rw [hn]; simp)).1 this
  · have := natRepr_inj (str_ext hd)
    omega

theorem slash_split : ∀ (a a₂ b b₂ : List Char), a ++ '/' :: b = a₂ ++ '/' :: b₂ →
    (∀ c ∈ a, c ≠ '/') → (∀ c ∈ a₂, c ≠ '/') → a = a₂ ∧ b = b₂ := by
  intro a
  induction a with
  | nil =>
    intro a₂ b b₂ h _ ha₂
    cases a₂ with
    | nil => simpa using h
    | cons c r =>
      simp only [List.nil_append, List.cons_append, List.cons.injEq] at h
      exact absurd h.1.symm (ha₂ c (by simp))
  | cons c r ih =>
    intro a₂ b b₂ h ha ha₂
    cases a₂ with
    | nil =>
      simp only [List.nil_append, List.cons_append, List.cons.injEq] at h
      exact absurd h.1 (ha c (by simp))
    | cons d t =>
      simp only [List.cons_append, List.cons.injEq] at h
      have := ih t b b₂ h.2 (fun x hx => ha x (by simp [hx])) (fun x hx => ha₂ x (by simp [hx]))
      exact ⟨by rw [h.1, this.1], this.2⟩

theorem ratRepr_inj {p q : Rat} (h : ratRepr p = ratRepr q) : p = q := by
  have hd := congrArg String.data h
  rw [ratRepr, ratRepr, str_data_append, str_data_append, str_data_append, str_data_append] at hd
  have hslash : (("/" : String).data) = ['/'] := rfl
  rw [hslash, List.append_assoc, List.append_assoc] at hd
  simp only [List.cons_append, List.nil_append] at hd
  have := slash_split _ _ _ _ hd (intRepr_chars p.num) (intRepr_chars q.num)
  have hnum := intRepr_inj (str_ext this.1)
  have hden := natRepr_inj (str_ext this.2)
  exact Rat.ext hnum hden

theorem ratRepr_ne {p q : Rat} (h : p ≠ q) : ratRepr p ≠ ratRepr q :=
  fun he => h (ratRepr_inj he)

theorem merklePair_length : ∀ (l : List String), (merklePair l).length = l.length / 2
  | [] => by simp [merklePair]
  | [_] => by simp [merklePair]
  | a :: b :: r => by
    rw [merklePair, List.length_cons, merklePair_length r]
    simp only [List.length_cons]
    omega

theorem merklePad_length (l : List String) :
    (merklePad l).length = l.length + l.length % 2 := by
  rw [merklePad]
  split
  · rename_i h
    rw [List.length_append]
    simp only [List.length_singleton]
    omega
  · rename_i h
    omega

/-! ## The merkle reduction separates levels that differ in one position

The lemmas below track a single changed digest through the pairing loop:
if two levels agree everywhere except one position, the reduced levels do
too, and the final roots differ.  This is the content of amount-tamper
detection. -/

theorem merklePair_append_even :
    ∀ (a b : List String), a.length % 2 = 0 → merklePair (a ++ b) = merklePair a ++ merklePair b
  | [], b, _ => by simp [merklePair]
  | [x], b, h => by simp at h
  | x :: y :: r, b, h => by
    have hr : r.length % 2 = 0 := by
      simp only [List.length_cons] at h
      omega
    simp only [List.cons_append, merklePair, List.cons.injEq, true_and]
    exact merklePair_append_even r b hr

theorem merklePair_cons_cons (a b : String) (r : List String) :
    merklePair (a :: b :: r) = sha256 (a ++ b) :: merklePair r := rfl

theorem merklePair_nil : merklePair [] = [] := rfl

/-- One pairing pass on two even-length levels that differ exactly at one
position yields two levels that again differ exactly at one position. -/
theorem merklePair_onediff (p s : List String) (x y : String) (hxy : x ≠ y)
    (heven : (p ++ x :: s).length % 2 = 0) :
    ∃ q u v t, u ≠ v ∧
      merklePair (p ++ x :: s) = q ++ u :: t ∧
      merklePair (p ++ y :: s) = q ++ v :: t := by
  rcases Nat.mod_two_eq_zero_or_one p.length with hp | hp
  · -- the changed digest is the left half of its pair, so `s` is nonempty
    cases s with
    | nil =>
      exfalso
      simp only [List.length_append, List.length_cons, List.length_nil] at heven
      omega
    | cons s0 s1 =>
      refine ⟨merklePair p, sha256 (x ++ s0), sha256 (y ++ s0), merklePair s1,
        sha256_ne (str_append_right_ne s0 hxy), ?_, ?_⟩
      · rw [merklePair_append_even p _ hp, merklePair_cons_cons]
      · rw [merklePair_append_even p _ hp, merklePair_cons_cons]
  · -- the changed digest is the right half of its pair, preceded by the last of `p`
    obtain hpnil | ⟨p0, a, hpc⟩ := List.eq_nil_or_concat p
    · exfalso
      subst hpnil
      exact absurd hp (by decide)
    · rw [List.concat_eq_append] at hpc
      subst hpc
      have hp0 : p0.length % 2 = 0 := by
        simp only [List.length_append, List.length_cons, List.length_nil] at hp
        omega
      have hassoc : ∀ z : String, (p0 ++ [a]) ++ z :: s = p0 ++ a :: z :: s := by
        intro z
        simp [List.append_assoc]
      refine ⟨merklePair p0, sha256 (a ++ x), sha256 (a ++ y), merklePair s,
        sha256_ne (str_append_left_ne a hxy), ?_, ?_⟩
      · rw [hassoc x, merklePair_append_even p0 _ hp0, merklePair_cons_cons]
      · rw [hassoc y, merklePair_append_even p0 _ hp0, merklePair_cons_cons]

/-- The pad-then-pair body of one loop iteration preserves the
one-position-difference shape (for levels of length at least 2). -/
theorem merkleStep_onediff (p s : List String) (x y : String) (hxy : x ≠ y) :
    ∃ q u v t, u ≠ v ∧
      merklePair (merklePad (p ++ x :: s)) = q ++ u :: t ∧
      merklePair (merklePad (p ++ y :: s)) = q ++ v :: t := by
  have hleq : (p ++ y :: s).length = (p ++ x :: s).length := by simp
  rcases Nat.mod_two_eq_zero_or_one (p ++ x :: s).length with hpar | hpar
  · rw [merklePad, if_neg (by rw [hpar]; decide), merklePad, if_neg (by rw [hleq, hpar]; decide)]
    exact merklePair_onediff p s x y hxy hpar
  · rw [merklePad, if_pos (by rw [hpar]), merklePad, if_pos (by rw [hleq, hpar])]
    obtain hsnil | ⟨s1, a, hsc⟩ := List.eq_nil_or_concat s
    · -- the changed digest is last: it is duplicated on both sides
      subst hsnil
      have hp : p.length % 2 = 0 := by
        simp only [List.length_append, List.length_cons, List.length_nil] at hpar
        omega
      have hlast : ∀ z : String, (p ++ z :: []).getLastD "" = z := by
        intro z
        rw [show p ++ z :: [] = p ++ [z] from rfl, List.getLastD_concat]
      rw [hlast x, hlast y]
      have hassoc : ∀ z : String, (p ++ z :: []) ++ [z] = p ++ z :: z :: [] := by
        intro z
        simp
      rw [hassoc x, hassoc y]
      refine ⟨merklePair p, sha256 (x ++ x), sha256 (y ++ y), [],
        sha256_ne (str_double_ne hxy), ?_, ?_⟩
      · rw [merklePair_append_even p _ hp, merklePair_cons_cons, merklePair_nil]
      · rw [merklePair_append_even p _ hp, merklePair_cons_cons, merklePair_nil]
    · -- the duplicated last digest is common to both sides
      rw [List.concat_eq_append] at hsc
      subst hsc
      have hlast : ∀ z : String, (p ++ z :: (s1 ++ [a])).getLastD "" = a := by
        intro z
        rw [show p ++ z :: (s1 ++ [a]) = (p ++ z :: s1) ++ [a] by simp, List.getLastD_concat]
      rw [hlast x, hlast y]
      have hassoc : ∀ z : String, (p ++ z :: (s1 ++ [a])) ++ [a] = p ++ z :: (s1 ++ [a] ++ [a]) := by
        intro z
        simp
      rw [hassoc x, hassoc y]
      have heven : (p ++ x :: (s1 ++ [a] ++ [a])).length % 2 = 0 := by
        simp only [List.length_append, List.length_cons, List.length_nil] at hpar ⊢
        omega
      exact merklePair_onediff p (s1 ++ [a] ++ [a]) x y hxy heven

/-- Levels that differ in exactly one position have different loop results
(given enough fuel). -/
theorem merkleLoopFuel_onediff :
    ∀ (f : Nat) (p s : List String) (x y : String), x ≠ y → (p ++ x :: s).length ≤ f →
      merkleLoopFuel f (p ++ x :: s) ≠ merkleLoopFuel f (p ++ y :: s) := by
  intro f
  induction f with
  | zero =>
    intro p s x y hxy hf
    exfalso
    simp only [List.length_append, List.length_cons] at hf
    omega
  | succ f ih =>
    intro p s x y hxy hf
    simp only [merkleLoopFuel]
    by_cases hle : (p ++ x :: s).length ≤ 1
    · have hp : p = [] := by
        have := List.length_eq_zero.1 (show p.length = 0 by
          simp only [List.length_append, List.length_cons] at hle
          omega)
        exact this
      have hs : s = [] := by
        have := List.length_eq_zero.1 (show s.length = 0 by
          simp only [List.length_append, List.length_cons] at hle
          omega)
        exact this
      subst hp; subst hs
      simpa using hxy
    · have hley : ¬ (p ++ y :: s).length ≤ 1 := by
        simp only [List.length_append, List.length_cons] at hle ⊢
        omega
      rw [if_neg hle, if_neg hley]
      obtain ⟨q, u, v, t, huv, hx2, hy2⟩ := merkleStep_onediff p s x y hxy
      rw [hx2, hy2]
      apply ih q t u v huv
      have h1 : (q ++ u :: t).length = (merklePair (merklePad (p ++ x :: s))).length := by
        rw [hx2]
      rw [merklePair_length, merklePad_length] at h1
      simp only [List.length_append, List.length_cons] at h1 hf hle ⊢
      omega

/-- Digest levels that differ in exactly one position have different merkle
roots. -/
theorem merkleLoop_onediff (p s : List String) (x y : String) (hxy : x ≠ y) :
    merkleLoop (p ++ x :: s) ≠ merkleLoop (p ++ y :: s) := by
  rw [merkleLoop, merkleLoop]
  have hl : (p ++ y :: s).length = (p ++ x :: s).length := by simp
  rw [hl]
  exact merkleLoopFuel_onediff _ p s x y hxy le_rfl

/-! ## Injectivity of the canonical serializations in single fields -/

theorem txPayloadRest_amount_irrel (t : Transaction) (a : Rat) :
    txPayloadRest { t with amount := a } = txPayloadRest t := rfl

/-- Changing only the amount changes the canonical transaction hash. -/
theorem tx_hash_amount_ne (t : Transaction) (a : Rat) (ha : a ≠ t.amount) :
    Transaction.compute_hash { t with amount := a } ≠ Transaction.compute_hash t := by
  apply sha256_ne
  show ("\x7b\"amount\": " ++ ratRepr a) ++ txPayloadRest { t with amount := a } ≠
    ("\x7b\"amount\": " ++ ratRepr t.amount) ++ txPayloadRest t
  rw [txPayloadRest_amount_irrel]
  exact str_middle_ne "\x7b\"amount\": " (txPayloadRest t) (ratRepr_ne ha)

/-- The stored hash field is not an input of the block hash. -/
theorem block_hash_hash_irrel (b : Block) (h : String) :
    Block.compute_hash { b with hash := h } = Block.compute_hash b := rfl

/-- Blocks that differ only in the transaction list, with different merkle
roots, have different recomputed hashes. -/
theorem block_hash_txs_ne (b : Block) (txs : List Transaction)
    (hne : compute_merkle_root txs ≠ compute_merkle_root b.transactions) :
    Block.compute_hash { b with transactions := txs } ≠ Block.compute_hash b := by
  apply sha256_ne
  show headerPre b ++ jsonEsc (compute_merkle_root txs) ++ headerPost b ≠
    headerPre b ++ jsonEsc (compute_merkle_root b.transactions) ++ headerPost b
  exact str_middle_ne (headerPre b) (headerPost b) (jsonEsc_ne hne)

/-! ## Single-position list updates -/

theorem listModify_length {α : Type} (f : α → α) :
    ∀ (n : Nat) (l : List α), (listModify f n l).length = l.length
  | n, [] => by cases n <;> rfl
  | 0, _ :: _ => rfl
  | n + 1, a :: l => by
    simp only [listModify, List.length_cons, listModify_length f n l]

theorem listModify_decomp {α : Type} (f : α → α) :
    ∀ (j : Nat) (l : List α) (hj : j < l.length),
      ∃ p s, p.length = j ∧ l = p ++ l[j] :: s ∧ listModify f j l = p ++ f l[j] :: s
  | 0, a :: l, _ => ⟨[], l, rfl, rfl, rfl⟩
  | j + 1, a :: l, hj => by
    obtain ⟨p, s, hp, hl, hm⟩ := listModify_decomp f j l (by simpa using hj)
    refine ⟨a :: p, s, by simp [hp], ?_, ?_⟩
    · simp only [List.getElem_cons_succ, List.cons_append]
      rw [← hl]
    · simp only [listModify, List.getElem_cons_succ, List.cons_append]
      rw [← hm]

/-- Unfolding of the merkle root on a list exhibited with a distinguished
element. -/
theorem compute_merkle_root_split (p s : List Transaction) (t : Transaction) :
    compute_merkle_root (p ++ t :: s) =
      merkleLoop (p.map Transaction.compute_hash ++
        Transaction.compute_hash t :: s.map Transaction.compute_hash) := by
  simp only [compute_merkle_root, List.map_append, List.map_cons]
  rw [if_neg (by simp)]

/-- Changing one transaction of a list so that its canonical hash changes
changes the merkle root. -/
theorem compute_merkle_root_modify_ne (txs : List Transaction) (j : Nat)
    (hj : j < txs.length) (g : Transaction → Transaction)
    (hne : Transaction.compute_hash (g txs[j]) ≠ Transaction.compute_hash txs[j]) :
    compute_merkle_root (listModify g j txs) ≠ compute_merkle_root txs := by
  obtain ⟨p, s, hp, hl, hm⟩ := listModify_decomp g j txs hj
  rw [hm]
  conv_rhs => rw [hl]
  rw [compute_merkle_root_split, compute_merkle_root_split]
  exact merkleLoop_onediff _ _ _ _ hne

/-! ## Soundness of the proof-of-work search loop -/

theorem powAux_sound :
    ∀ (f d k : Nat) (b : Block) (hsh : String) (n : Nat),
      powAux d b k f = some (hsh, n) →
      k ≤ n ∧ pyStartsWith hsh (powTarget d) = true ∧
        hsh = Block.compute_hash { b with nonce := n } ∧
        ∀ m, k ≤ m → m < n →
          pyStartsWith (Block.compute_hash { b with nonce := m }) (powTarget d) = false := by
  intro f
  induction f with
  | zero =>
    intro d k b hsh n h
    exact absurd h (by simp [powAux])
  | succ f ih =>
    intro d k b hsh n h
    cases hhit : pyStartsWith (Block.compute_hash { b with nonce := k }) (powTarget d) with
    | true =>
      simp only [powAux, hhit, if_true, Option.some.injEq, Prod.mk.injEq] at h
      obtain ⟨hh, hk⟩ := h
      subst hh
      subst hk
      exact ⟨le_rfl, hhit, rfl, fun m h1 h2 => absurd (Nat.lt_of_le_of_lt h1 h2) (Nat.lt_irrefl _)⟩
    | false =>
      simp only [powAux, hhit, Bool.false_eq_true, if_false] at h
      obtain ⟨h1, h2, h3, h4⟩ := ih d (k + 1) b hsh n h
      refine ⟨by omega, h2, h3, fun m hm1 hm2 => ?_⟩
      rcases Nat.eq_or_lt_of_le hm1 with heq | hlt
      · rw [heq] at hhit
        exact hhit
      · exact h4 m hlt hm2

/-- The search result depends only on the hash of each nonce candidate. -/
theorem powAux_congr (d : Nat) (b1 b2 : Block)
    (hcong : ∀ m, Block.compute_hash { b1 with nonce := m } = Block.compute_hash { b2 with nonce := m }) :
    ∀ (f k : Nat), powAux d b1 k f = powAux d b2 k f := by
  intro f
  induction f with
  | zero => intro k; rfl
  | succ f ih =>
    intro k
    simp only [powAux, hcong k]
    by_cases hhit : pyStartsWith (Block.compute_hash { b2 with nonce := k }) (powTarget d) = true
    · rw [if_pos hhit, if_pos hhit]
    · rw [if_neg hhit, if_neg hhit, ih]

theorem wellFormed_congr_chain {bc1 bc2 : Blockchain} (h : bc1.chain = bc2.chain) :
    bc1.wellFormed = bc2.wellFormed := by
  rw [Blockchain.wellFormed, Blockchain.wellFormed, h]

theorem wfChain_sound :
    ∀ (g : Block) (l : List Block), wfChain g l = true →
      ∀ (i : Nat) (hi : i < l.length) (hgi : i < (g :: l).length),
        (l[i]).previous_hash = ((g :: l)[i]).hash ∧ (l[i]).compute_hash = (l[i]).hash
  | g, [] => by intro _ i hi _; exact absurd hi (by simp)
  | g, c :: rest => by
    intro hw i hi hgi
    simp only [wfChain, Bool.and_eq_true, decide_eq_true_eq] at hw
    obtain ⟨⟨hprev, hhash⟩, hrest⟩ := hw
    cases i with
    | zero => exact ⟨hprev, hhash⟩
    | succ j =>
      have hj : j < rest.length := by simpa using hi
      have := wfChain_sound c rest hrest j hj (by simp; omega)
      simpa using this

/-- A chain that passes `is_chain_valid`'s loop in particular passes the two
structural checks. -/
theorem chainCheck_wf :
    ∀ (c : Crypto) (g : Block) (l : List Block), chainCheck c g l = true → wfChain g l = true
  | _, _, [] => fun _ => rfl
  | c, g, cur :: rest => by
    intro h
    simp only [chainCheck, Bool.and_eq_true] at h
    obtain ⟨⟨⟨h1, h2⟩, _⟩, h4⟩ := h
    simp only [wfChain, Bool.and_eq_true]
    exact ⟨⟨h1, h2⟩, chainCheck_wf c cur rest h4⟩

theorem wfChain_snoc :
    ∀ (g : Block) (t : List Block) (b : Block),
      wfChain g (t ++ [b]) = true ↔
        (wfChain g t = true ∧ b.previous_hash = (t.getLastD g).hash ∧ b.compute_hash = b.hash)
  | g, [], b => by simp [wfChain, List.getLastD]
  | g, c :: t, b => by
    simp only [List.cons_append, wfChain, Bool.and_eq_true, decide_eq_true_eq,
      List.getLastD_cons, and_assoc, List.append_eq]
    rw [wfChain_snoc c t b]

theorem add_transaction_chain (c : Crypto) (bc : Blockchain) (tx : Transaction) :
    ((Blockchain.add_transaction c bc tx).1).chain = bc.chain := by
  rw [Blockchain.add_transaction]
  split
  · rfl
  · split
    · rfl
    · rfl

theorem Block_new_hash_ok (i : Nat) (txs : List Transaction) (p : String) (ts : Rat) (n : Nat) :
    (Block.new i txs p ts n).hash = (Block.new i txs p ts n).compute_hash := rfl

theorem last_block_eq (bc : Blockchain) (g : Block) (t : List Block) (h : bc.chain = g :: t) :
    bc.last_block = t.getLastD g := by
  rw [Blockchain.last_block, h, List.getLastD_cons]

/-- What one successful `mine_fixed` call does to the state: appends exactly
the mined block, whose fields are as constructed, and clears the pool. -/
theorem mine_fixed_shape (bc : Blockchain) (pub : String) (t1 t2 : Rat) (fuel : Nat)
    (bc2 : Blockchain) (blk : Block)
    (h : bc.mine_fixed pub t1 t2 fuel = some (bc2, blk)) :
    bc2.chain = bc.chain ++ [blk] ∧
    bc2.pending_transactions = [] ∧
    bc2.difficulty = bc.difficulty ∧
    bc2.mining_reward = bc.mining_reward ∧
    blk.previous_hash = bc.last_block.hash ∧
    blk.index = bc.last_block.index + 1 ∧
    blk.compute_hash = blk.hash ∧
    blk.transactions = bc.pending_transactions ++
      [rewardTx pub (bc.mining_reward + (bc.pending_transactions.map Transaction.fee).sum) t1] ∧
    blk.timestamp = t2 := by
  cases hpow : powAux bc.difficulty
      (Block.new (bc.last_block.index + 1)
        (bc.pending_transactions ++
          [rewardTx pub (bc.mining_reward + (bc.pending_transactions.map Transaction.fee).sum) t1])
        bc.last_block.hash t2 0) 0 fuel with
  | none =>
    exfalso
    simp only [Blockchain.mine_fixed, hpow] at h
    exact Option.noConfusion h
  | some pr =>
    obtain ⟨hsh, n⟩ := pr
    simp only [Blockchain.mine_fixed, hpow, Option.some.injEq, Prod.mk.injEq] at h
    obtain ⟨hbc2, hblk⟩ := h
    subst hbc2
    subst hblk
    have hsound := powAux_sound fuel bc.difficulty 0 _ hsh n hpow
    refine ⟨rfl, ?_, rfl, rfl, rfl, rfl, ?_, rfl, rfl⟩
    · rw [List.filter_eq_nil_iff]
      intro tx htx
      simp [List.mem_append_left _ htx]
    · exact (hsound.2.2.1).symm

/-- Every reachable ledger state has the genesis shape at the head of its
chain and is structurally well formed. -/
theorem reachable_inv : ∀ (bc : Blockchain), Reachable bc →
    (∃ g t, bc.chain = g :: t ∧ g.index = 0 ∧ g.transactions = [] ∧
      g.previous_hash = "0" ∧ g.nonce = 0) ∧ bc.wellFormed = true := by
  intro bc h
  induction h with
  | boot d r ts =>
    refine ⟨⟨Block.new 0 [] "0" ts 0, [], rfl, rfl, rfl, rfl, rfl⟩, ?_⟩
    show Blockchain.wellFormed _ = true
    simp [Blockchain.wellFormed, Blockchain.init, wfChain, Block_new_hash_ok]
  | submit c bc tx hr ih =>
    have hch := add_transaction_chain c bc tx
    obtain ⟨⟨g, t, hgt, h1, h2, h3, h4⟩, hwf⟩ := ih
    refine ⟨⟨g, t, by rw [hch, hgt], h1, h2, h3, h4⟩, ?_⟩
    rw [wellFormed_congr_chain hch]
    exact hwf
  | mined bc bc2 pub t1 t2 fuel blk hr hm ih =>
    obtain ⟨hchain, hpend, hdiff, hrew, hprev, hidx, hcomp, htxs, hts⟩ :=
      mine_fixed_shape bc pub t1 t2 fuel bc2 blk hm
    obtain ⟨⟨g, t, hgt, h1, h2, h3, h4⟩, hwf⟩ := ih
    have hchain2 : bc2.chain = g :: (t ++ [blk]) := by
      rw [hchain, hgt, List.cons_append]
    refine ⟨⟨g, t ++ [blk], hchain2, h1, h2, h3, h4⟩, ?_⟩
    rw [Blockchain.wellFormed, hchain2]
    rw [Blockchain.wellFormed, hgt] at hwf
    simp only [Bool.and_eq_true, decide_eq_true_eq] at hwf ⊢
    obtain ⟨hg, hwft⟩ := hwf
    refine ⟨hg, ?_⟩
    rw [wfChain_snoc]
    refine ⟨hwft, ?_, hcomp⟩
    rw [hprev, last_block_eq bc g t hgt]



/-! ## Fuel does not matter once it covers the level length -/

theorem merkleLoopFuel_eq_loop : ∀ (f : Nat) (l : List String), l.length ≤ f →
    merkleLoopFuel f l = merkleLoop l := by
  intro f
  induction f using Nat.strong_induction_on with
  | _ f ih =>
    intro l hl
    match f, l with
    | 0, l =>
      have : l = [] := List.eq_nil_of_length_eq_zero (by omega)
      subst this
      rfl
    | f2 + 1, [] => rfl
    | f2 + 1, [a] => rfl
    | f2 + 1, a :: b :: r =>
      rw [merkleLoop]
      have hcond : ¬ ((a :: b :: r).length ≤ 1) := by simp
      have hlen : (a :: b :: r).length = r.length + 2 := by simp
      rw [show (a :: b :: r).length = r.length + 1 + 1 by simp]
      rw [merkleLoopFuel, merkleLoopFuel]
      rw [if_neg hcond, if_neg hcond]
      have hnext : (merklePair (merklePad (a :: b :: r))).length < (a :: b :: r).length := by
        rw [merklePair_length, merklePad_length]
        omega
      rw [ih f2 (by omega) _ (by omega)]
      rw [ih (r.length + 1) (by omega) _ (by omega)]

/-! ## Claim theorems -/

/-- C3 (code bug): the claim describes the intended behaviour of
`mine_pending_transactions`, but the method as written calls the
`Transaction` constructor on line 226 with keyword arguments
`sender=`/`recipient=` that `Transaction.__init__` does not accept, so every
call — from every ledger state, with every miner key — raises `TypeError`
instead of appending a block. -/
theorem claim_C3_mine_always_raises (bc : Blockchain) (miner_pub : String) :
    bc.mine_pending_transactions miner_pub = Except.error PyError.typeError := rfl

/-- C9 (code bug): with an empty pending pool the claim expects a mined block
holding exactly the SYSTEM reward transaction, but the call raises
`TypeError` (same constructor-keyword bug as C3), shown here evaluated at a
concrete freshly-constructed ledger whose pool is empty. -/
theorem claim_C9_mine_on_empty_pool_raises :
    (Blockchain.init 0 25 0).pending_transactions = [] ∧
    (Blockchain.init 0 25 0).mine_pending_transactions "M" = Except.error PyError.typeError :=
  ⟨rfl, rfl⟩

/-- C4: whenever the proof-of-work search returns `(hash, nonce)`, the hash
meets the difficulty target (has at least `difficulty` leading zeros), the
hash is the recomputed header hash at that nonce, and the nonce is the least
natural number satisfying the target with the other header fields fixed. -/
theorem claim_C4_proof_of_work_sound (bc : Blockchain) (b : Block) (fuel : Nat)
    (hsh : String) (n : Nat) (h : bc.proof_of_work b fuel = some (hsh, n)) :
    pyStartsWith hsh (powTarget bc.difficulty) = true ∧
    hsh = Block.compute_hash { b with nonce := n } ∧
    ∀ m, m < n →
      pyStartsWith (Block.compute_hash { b with nonce := m }) (powTarget bc.difficulty) = false := by
  obtain ⟨h1, h2, h3, h4⟩ := powAux_sound fuel bc.difficulty 0 b hsh n h
  exact ⟨h2, h3, fun m hm => h4 m (Nat.zero_le m) hm⟩

/-- Witness for C4: at difficulty 0 the search halts at nonce 0 with the
recomputed hash, and minimality is vacuous. -/
theorem claim_C4_witness :
    pyStartsWith (Block.compute_hash { blkSample with nonce := 0 })
      (powTarget (Blockchain.init 0 25 0).difficulty) = true ∧
    Block.compute_hash { blkSample with nonce := 0 } =
      Block.compute_hash { blkSample with nonce := 0 } ∧
    ∀ m, m < 0 →
      pyStartsWith (Block.compute_hash { blkSample with nonce := m })
        (powTarget (Blockchain.init 0 25 0).difficulty) = false :=
  claim_C4_proof_of_work_sound (Blockchain.init 0 25 0) blkSample 1
    (Block.compute_hash { blkSample with nonce := 0 }) 0 rfl

/-- C10: `proof_of_work` resets the candidate's nonce to 0 before searching
and recomputes the header hash with the loop's own nonce at every step, so
for any two candidate blocks agreeing on `index`, `previous_hash`,
`timestamp` and the transaction list — with both their incoming nonce values
and their stored hash fields unconstrained — the search returns the same
result: it is a function of the header fields excluding the incoming
nonce. -/
theorem claim_C10_pow_ignores_incoming_nonce (bc : Blockchain) (b1 b2 : Block) (fuel : Nat)
    (hidx : b1.index = b2.index) (hprev : b1.previous_hash = b2.previous_hash)
    (hts : b1.timestamp = b2.timestamp) (htx : b1.transactions = b2.transactions) :
    bc.proof_of_work b1 fuel = bc.proof_of_work b2 fuel := by
  rw [Blockchain.proof_of_work, Blockchain.proof_of_work]
  apply powAux_congr bc.difficulty b1 b2 _ fuel 0
  intro m
  cases b1 with
  | mk i1 t1 p1 ts1 n1 h1 =>
    cases b2 with
    | mk i2 t2 p2 ts2 n2 h2 =>
      obtain rfl : i1 = i2 := hidx
      obtain rfl : p1 = p2 := hprev
      obtain rfl : ts1 = ts2 := hts
      obtain rfl : t1 = t2 := htx
      rfl

/-- Witness for C10: two constructor-built candidates differing in their
initial nonce (and hence in their derived stored hash) give the same search
result. -/
theorem claim_C10_witness :
    (Blockchain.init 0 25 0).proof_of_work (Block.new 0 [] "0" 0 0) 1 =
      (Blockchain.init 0 25 0).proof_of_work (Block.new 0 [] "0" 0 5) 1 :=
  claim_C10_pow_ignores_incoming_nonce (Blockchain.init 0 25 0)
    (Block.new 0 [] "0" 0 0) (Block.new 0 [] "0" 0 5) 1 rfl rfl rfl rfl

/-- C6: the merkle root of the empty list is the hash of the empty string;
of a singleton, the transaction's canonical hash; and for longer lists one
loop iteration pads an odd level with its last digest and pairs adjacent
digests, as the two- and three-element instances spell out. -/
theorem claim_C6_merkle_root_shape :
    compute_merkle_root [] = sha256 "" ∧
    (∀ t : Transaction, compute_merkle_root [t] = t.compute_hash) ∧
    (∀ t1 t2 rest, compute_merkle_root (t1 :: t2 :: rest) =
      merkleLoop (merklePair (merklePad ((t1 :: t2 :: rest).map Transaction.compute_hash)))) ∧
    (∀ t1 t2 : Transaction, compute_merkle_root [t1, t2] =
      sha256 (t1.compute_hash ++ t2.compute_hash)) ∧
    (∀ t1 t2 t3 : Transaction, compute_merkle_root [t1, t2, t3] =
      sha256 (sha256 (t1.compute_hash ++ t2.compute_hash) ++
        sha256 (t3.compute_hash ++ t3.compute_hash))) := by
  refine ⟨rfl, fun t => rfl, fun t1 t2 rest => ?_,
    fun t1 t2 => by with_unfolding_all rfl, fun t1 t2 t3 => by with_unfolding_all rfl⟩
  have hne : ¬ ((t1 :: t2 :: rest).map Transaction.compute_hash = []) := by simp
  simp only [compute_merkle_root]
  rw [if_neg hne, merkleLoop]
  rw [show ((t1 :: t2 :: rest).map Transaction.compute_hash).length = rest.length + 1 + 1 by simp]
  rw [merkleLoopFuel]
  rw [if_neg (by simp only [List.length_map, List.length_cons]; omega)]
  apply merkleLoopFuel_eq_loop
  rw [merklePair_length, merklePad_length]
  simp only [List.length_map, List.length_cons]
  omega

/-- C7: the canonical transaction hash is computed from
`{sender, recipient, amount, fee, timestamp}` only — the signature field
never influences it. -/
theorem claim_C7_signature_excluded (t1 t2 : Transaction)
    (hs : t1.sender = t2.sender) (hr : t1.recipient = t2.recipient)
    (ha : t1.amount = t2.amount) (hf : t1.fee = t2.fee) (ht : t1.timestamp = t2.timestamp) :
    t1.compute_hash = t2.compute_hash := by
  rw [Transaction.compute_hash, Transaction.compute_hash, txPayload, txPayload,
    txPayloadRest, txPayloadRest, hs, hr, ha, hf, ht]

/-- Witness for C7: two transactions equal except for the signature field
(one signed, one not) hash identically. -/
theorem claim_C7_witness :
    Transaction.compute_hash ⟨"a", "b", 1, 2, 3, some "ff"⟩ =
      Transaction.compute_hash ⟨"a", "b", 1, 2, 3, none⟩ :=
  claim_C7_signature_excluded ⟨"a", "b", 1, 2, 3, some "ff"⟩ ⟨"a", "b", 1, 2, 3, none⟩
    rfl rfl rfl rfl rfl

/-- C8: `verify_signature` is a total boolean predicate: it returns `true`
exactly when the public-key hex decodes, the verifying key parses, the
signature hex decodes, and the cryptographic check passes; every failure of
the attempted pipeline (malformed hex, bad key, invalid signature — the
exceptions of the `try` block) is turned into the return value `false`
rather than propagated.  Quantified over every possible behaviour of the
external ECDSA oracles. -/
theorem claim_C8_verify_signature_total (c : Crypto) (pub msg sig : String) :
    (Wallet.verify_signature c pub msg sig = true ↔
      ∃ pk sg, hexDecode pub = some pk ∧ c.vkParse pk = true ∧
        hexDecode sig = some sg ∧ c.verifyOk pk sg msg = true) ∧
    (∀ e, verifyAttempt c pub msg sig = Except.error e →
      Wallet.verify_signature c pub msg sig = false) := by
  constructor
  · constructor
    · intro h
      cases hp : hexDecode pub with
      | none =>
        simp only [Wallet.verify_signature, verifyAttempt, hp] at h
        exact Bool.noConfusion h
      | some pk =>
        by_cases hv : c.vkParse pk = true
        · cases hs : hexDecode sig with
          | none =>
            simp only [Wallet.verify_signature, verifyAttempt, hp, if_pos hv, hs] at h
            exact Bool.noConfusion h
          | some sg =>
            by_cases ho : c.verifyOk pk sg msg = true
            · exact ⟨pk, sg, rfl, hv, rfl, ho⟩
            · simp only [Wallet.verify_signature, verifyAttempt, hp, if_pos hv, hs,
                if_neg ho] at h
              exact Bool.noConfusion h
        · simp only [Wallet.verify_signature, verifyAttempt, hp, if_neg hv] at h
          exact Bool.noConfusion h
    · rintro ⟨pk, sg, hp, hv, hs, ho⟩
      simp only [Wallet.verify_signature, verifyAttempt, hp, if_pos hv, hs, if_pos ho]
  · intro e he
    rw [Wallet.verify_signature, he]

/-- Witness for C8: on a malformed public-key hex string the attempt raises
`ValueError` and `verify_signature` returns `false`. -/
theorem claim_C8_witness : Wallet.verify_signature cNoVerify "zz" "m" "aa" = false :=
  (claim_C8_verify_signature_total cNoVerify "zz" "m" "aa").2 PyError.valueError rfl

/-- C1: for a non-SYSTEM transaction that passes signature validation,
`add_transaction` accepts (returns `true` and appends the transaction to the
pending pool) exactly when `amount + fee` is at most the confirmed balance
minus the pending spend of the same sender — the boundary case of equality
is accepted — and every rejection returns `false` leaving the whole state
(chain and pool) unchanged. -/
theorem claim_C1_add_transaction (c : Crypto) (bc : Blockchain) (tx : Transaction)
    (hsys : tx.sender ≠ "SYSTEM") (hvalid : tx.is_valid c = true) :
    (((bc.add_transaction c tx).2 = true ∧
      (bc.add_transaction c tx).1 =
        { bc with pending_transactions := bc.pending_transactions ++ [tx] }) ↔
      tx.amount + tx.fee ≤ bc.get_balance tx.sender - bc.pendingSpent tx.sender) ∧
    ((bc.add_transaction c tx).2 = false → (bc.add_transaction c tx).1 = bc) := by
  have h1 : ¬ (tx.is_valid c = false) := by rw [hvalid]; decide
  rw [Blockchain.add_transaction, if_neg h1]
  by_cases hover : tx.amount + tx.fee > bc.get_balance tx.sender - bc.pendingSpent tx.sender
  · rw [if_pos ⟨hsys, hover⟩]
    constructor
    · constructor
      · intro hacc
        exact absurd hacc.1 (by simp)
      · intro hle
        exact absurd hover (not_lt.mpr hle)
    · intro _
      rfl
  · rw [if_neg (fun hc => hover hc.2)]
    constructor
    · constructor
      · intro _
        exact not_lt.mp hover
      · intro _
        exact ⟨rfl, rfl⟩
    · intro hfalse
      exact absurd hfalse (by simp)

/-- Witness for C1: on a fresh ledger the zero-amount, zero-fee transaction
sits exactly at the `amount + fee = available` boundary and is accepted. -/
theorem claim_C1_witness :
    ((Blockchain.init 4 50 0).add_transaction cAllTrue txSample).2 = true ∧
    ((Blockchain.init 4 50 0).add_transaction cAllTrue txSample).1 =
      { Blockchain.init 4 50 0 with
        pending_transactions := (Blockchain.init 4 50 0).pending_transactions ++ [txSample] } :=
  ((claim_C1_add_transaction cAllTrue (Blockchain.init 4 50 0) txSample
    (by decide) (by with_unfolding_all decide)).1).mpr (by with_unfolding_all decide)

/-- C5: in every reachable ledger state the chain starts with the fixed
genesis shape (index 0, no transactions, previous hash `"0"`, nonce 0) and
every later block's `previous_hash` equals the stored hash of its
predecessor.  `get_balance` and `is_chain_valid` are read-only in the
embedding, so preservation concerns construction, `add_transaction` and
mining (modelled by `mine_fixed`; the method as written raises before
mutating anything). -/
theorem claim_C5_genesis_and_linkage (bc : Blockchain) (h : Reachable bc) :
    (∃ g t, bc.chain = g :: t ∧ g.index = 0 ∧ g.transactions = [] ∧
      g.previous_hash = "0" ∧ g.nonce = 0) ∧
    (∀ (i : Nat) (hi : i + 1 < bc.chain.length),
      (bc.chain[i + 1]).previous_hash = (bc.chain[i]).hash) := by
  obtain ⟨hgen, hwf⟩ := reachable_inv bc h
  refine ⟨hgen, ?_⟩
  obtain ⟨g, t, hgt, _, _, _, _⟩ := hgen
  cases bc with
  | mk ch pend diff rew =>
    simp only at hgt
    subst hgt
    rw [Blockchain.wellFormed] at hwf
    simp only [Bool.and_eq_true] at hwf
    intro i hi
    have hit : i < t.length := by
      simp only [List.length_cons] at hi
      omega
    have := wfChain_sound g t hwf.2 i hit (by simp only [List.length_cons]; omega)
    simp only [List.getElem_cons_succ]
    exact this.1

/-- Witness for C5: a freshly constructed ledger is reachable and satisfies
both invariant parts. -/
theorem claim_C5_witness :
    (∃ g t, (Blockchain.init 4 50 0).chain = g :: t ∧ g.index = 0 ∧ g.transactions = [] ∧
      g.previous_hash = "0" ∧ g.nonce = 0) ∧
    (∀ (i : Nat) (hi : i + 1 < (Blockchain.init 4 50 0).chain.length),
      ((Blockchain.init 4 50 0).chain[i + 1]).previous_hash =
        ((Blockchain.init 4 50 0).chain[i]).hash) :=
  claim_C5_genesis_and_linkage (Blockchain.init 4 50 0) (Reachable.boot 4 50 0)

/-! ## Tamper detection (C2) -/

theorem listModify_getElem? {α : Type} (f : α → α) :
    ∀ (j k : Nat) (l : List α),
      (listModify f j l)[k]? = if k = j then (l[k]?).map f else l[k]?
  | j, k, [] => by cases j <;> simp [listModify]
  | 0, 0, a :: l => by simp [listModify]
  | 0, k + 1, a :: l => by simp [listModify]
  | j + 1, 0, a :: l => by simp [listModify]
  | j + 1, k + 1, a :: l => by
    simp only [listModify, List.getElem?_cons_succ, listModify_getElem? f j k l,
      Nat.add_right_cancel_iff]

theorem tamper_chain (bc : Blockchain) (i : Nat) (f : Block → Block) :
    (bc.tamper i f).chain = listModify f i bc.chain := rfl

theorem tamper_chain_length (bc : Blockchain) (i : Nat) (f : Block → Block) :
    (bc.tamper i f).chain.length = bc.chain.length := by
  rw [tamper_chain, listModify_length]

theorem tamper_getElem_self (bc : Blockchain) (i : Nat) (f : Block → Block)
    (hi : i < bc.chain.length) (hi2 : i < (bc.tamper i f).chain.length) :
    ((bc.tamper i f).chain[i]) = f (bc.chain[i]) := by
  have h1 : ((bc.tamper i f).chain)[i]? = some (f (bc.chain[i])) := by
    rw [tamper_chain, listModify_getElem? f i i bc.chain, if_pos rfl,
      List.getElem?_eq_getElem hi]
    rfl
  have h2 : ((bc.tamper i f).chain)[i]? = some ((bc.tamper i f).chain[i]) :=
    List.getElem?_eq_getElem hi2
  rw [h1] at h2
  exact (Option.some.inj h2).symm

theorem tamper_getElem_other (bc : Blockchain) (i k : Nat) (f : Block → Block)
    (hk : k < bc.chain.length) (hne : k ≠ i) (hk2 : k < (bc.tamper i f).chain.length) :
    ((bc.tamper i f).chain[k]) = bc.chain[k] := by
  have h1 : ((bc.tamper i f).chain)[k]? = some (bc.chain[k]) := by
    rw [tamper_chain, listModify_getElem? f i k bc.chain, if_neg hne,
      List.getElem?_eq_getElem hk]
  have h2 : ((bc.tamper i f).chain)[k]? = some ((bc.tamper i f).chain[k]) :=
    List.getElem?_eq_getElem hk2
  rw [h1] at h2
  exact (Option.some.inj h2).symm

/-- What passing `is_chain_valid` guarantees at every index after genesis:
the linkage to the predecessor and the stored-hash consistency. -/
theorem is_chain_valid_sound (c : Crypto) (bc : Blockchain)
    (hvalid : Blockchain.is_chain_valid c bc = true) :
    ∀ (i : Nat) (hi1 : 1 ≤ i) (hi : i < bc.chain.length),
      (bc.chain[i]).previous_hash = (bc.chain[i - 1]).hash ∧
      (bc.chain[i]).compute_hash = (bc.chain[i]).hash := by
  cases bc with
  | mk ch pend diff rew =>
    cases ch with
    | nil => intro i hi1 hi; exact absurd hi (by simp)
    | cons g rest =>
      simp only [Blockchain.is_chain_valid] at hvalid
      have hwf := chainCheck_wf c g rest hvalid
      intro i hi1 hi
      obtain ⟨j, rfl⟩ : ∃ j, i = j + 1 := ⟨i - 1, by omega⟩
      have hj : j < rest.length := by
        simp only [List.length_cons] at hi
        omega
      have hs := wfChain_sound g rest hwf j hj (by simp only [List.length_cons]; omega)
      constructor
      · simp only [List.getElem_cons_succ, Nat.add_sub_cancel]
        exact hs.1
      · simp only [List.getElem_cons_succ]
        exact hs.2

/-- What structural well-formedness guarantees at every index, genesis
included. -/
theorem wellFormed_sound (bc : Blockchain) (hwf : bc.wellFormed = true) :
    ∀ (i : Nat) (hi : i < bc.chain.length),
      (bc.chain[i]).compute_hash = (bc.chain[i]).hash ∧
      (∀ (hi1 : 1 ≤ i), (bc.chain[i]).previous_hash = (bc.chain[i - 1]).hash) := by
  cases bc with
  | mk ch pend diff rew =>
    cases ch with
    | nil => intro i hi; exact absurd hi (by simp)
    | cons g rest =>
      simp only [Blockchain.wellFormed, Bool.and_eq_true, decide_eq_true_eq] at hwf
      intro i hi
      cases i with
      | zero =>
        exact ⟨hwf.1.symm, fun hi1 => absurd hi1 (by omega)⟩
      | succ j =>
        have hj : j < rest.length := by
          simp only [List.length_cons] at hi
          omega
        have hs := wfChain_sound g rest hwf.2 j hj (by simp only [List.length_cons]; omega)
        refine ⟨by simpa using hs.2, fun _ => ?_⟩
        simp only [List.getElem_cons_succ, Nat.add_sub_cancel]
        exact hs.1

/-- C2 (amended): over any structurally well-formed chain — which every
chain produced by the ledger operations is, by `reachable_inv` — tampering a
block at an index `i ≥ 1` after the fact, in any of the three claimed ways
(its stored hash, its `previous_hash`, or the amount of any included
transaction), makes `is_chain_valid` return `false`.  The restriction to
`i ≥ 1` is forced by `claim_C2_counterexample`: the validation loop starts
at index 1 and never examines the genesis block's own fields. -/
theorem claim_C2_tamper_detection (c : Crypto) (bc : Blockchain)
    (hwf : bc.wellFormed = true) (i : Nat) (hi1 : 1 ≤ i) (hi : i < bc.chain.length) :
    (∀ h2, h2 ≠ (bc.chain[i]).hash →
      Blockchain.is_chain_valid c (bc.tamper i (fun b => { b with hash := h2 })) = false) ∧
    (∀ p2, p2 ≠ (bc.chain[i]).previous_hash →
      Blockchain.is_chain_valid c (bc.tamper i (fun b => { b with previous_hash := p2 })) = false) ∧
    (∀ (j : Nat) (hj : j < (bc.chain[i]).transactions.length) (a2 : Rat),
      a2 ≠ ((bc.chain[i]).transactions[j]).amount →
      Blockchain.is_chain_valid c
        (bc.tamper i (fun b =>
          { b with transactions :=
            listModify (fun t => { t with amount := a2 }) j b.transactions })) = false) := by
  have hwfs := wellFormed_sound bc hwf
  refine ⟨?_, ?_, ?_⟩
  · intro h2 hne
    set f : Block → Block := fun b => { b with hash := h2 } with hf
    cases hb : Blockchain.is_chain_valid c (bc.tamper i f) with
    | false => rfl
    | true =>
      exfalso
      have hiT : i < (bc.tamper i f).chain.length := by rw [tamper_chain_length]; exact hi
      have hs := (is_chain_valid_sound c (bc.tamper i f) hb i hi1 hiT).2
      rw [tamper_getElem_self bc i f hi hiT] at hs
      have : Block.compute_hash (bc.chain[i]) = h2 := hs
      rw [(hwfs i hi).1] at this
      exact hne this.symm
  · intro p2 hne
    set f : Block → Block := fun b => { b with previous_hash := p2 } with hf
    cases hb : Blockchain.is_chain_valid c (bc.tamper i f) with
    | false => rfl
    | true =>
      exfalso
      have hiT : i < (bc.tamper i f).chain.length := by rw [tamper_chain_length]; exact hi
      have hiT2 : i - 1 < (bc.tamper i f).chain.length := by rw [tamper_chain_length]; omega
      have hs := (is_chain_valid_sound c (bc.tamper i f) hb i hi1 hiT).1
      rw [tamper_getElem_self bc i f hi hiT,
        tamper_getElem_other bc i (i - 1) f (by omega) (by omega) hiT2] at hs
      have : p2 = (bc.chain[i - 1]).hash := hs
      rw [← (hwfs i hi).2 hi1] at this
      exact hne this
  · intro j hj a2 hne
    set gtx : Transaction → Transaction := fun t => { t with amount := a2 } with hgtx
    set f : Block → Block :=
      fun b => { b with transactions := listModify gtx j b.transactions } with hf
    cases hb : Blockchain.is_chain_valid c (bc.tamper i f) with
    | false => rfl
    | true =>
      exfalso
      have hiT : i < (bc.tamper i f).chain.length := by rw [tamper_chain_length]; exact hi
      have hs := (is_chain_valid_sound c (bc.tamper i f) hb i hi1 hiT).2
      rw [tamper_getElem_self bc i f hi hiT] at hs
      have hroot : compute_merkle_root (listModify gtx j (bc.chain[i]).transactions) ≠
          compute_merkle_root (bc.chain[i]).transactions :=
        compute_merkle_root_modify_ne (bc.chain[i]).transactions j hj gtx
          (tx_hash_amount_ne ((bc.chain[i]).transactions[j]) a2 hne)
      have hhash := block_hash_txs_ne (bc.chain[i]) (listModify gtx j (bc.chain[i]).transactions) hroot
      have hfh : (f (bc.chain[i])).hash = (bc.chain[i]).hash := rfl
      rw [hfh, ← (hwfs i hi).1] at hs
      exact hhash hs

/-- Counterexample to C2 as stated: the chain of a freshly constructed
ledger consists of the genesis block alone; overwriting its stored
`previous_hash` is a modification of a stored field of a chain produced by
the ledger operations, yet `is_chain_valid()` still returns `true`, because
its loop runs over indices `1 ..< len(chain)` and never checks genesis. -/
theorem claim_C2_counterexample :
    Reachable (Blockchain.init 4 50 0) ∧
    ((Blockchain.init 4 50 0).tamper 0 (fun b => { b with previous_hash := "1" })) ≠
      Blockchain.init 4 50 0 ∧
    Blockchain.is_chain_valid cAllTrue
      ((Blockchain.init 4 50 0).tamper 0 (fun b => { b with previous_hash := "1" })) = true :=
  ⟨Reachable.boot 4 50 0, by with_unfolding_all decide, rfl⟩

/-- Witness for C2: tampering the amount of the only transaction of the
second block of a concrete well-formed chain is detected. -/
theorem claim_C2_witness :
    Blockchain.is_chain_valid cAllTrue
      (bcTwo.tamper 1 (fun b =>
        { b with transactions :=
          listModify (fun t => { t with amount := 7 }) 0 b.transactions })) = false :=
  (claim_C2_tamper_detection cAllTrue bcTwo (by with_unfolding_all decide) 1
    (by decide) (by decide)).2.2 0 (by with_unfolding_all decide) 7
    (by with_unfolding_all decide)


end MiniBlockchain
